import Mathlib

/-!
# Verification of the cmdset encrypted-preset subsystem

Shallow embedding of the cmdset C library (src/cmdset.c, the `cmdset_*`
variant declared by cmdset.h) in Lean 4, together with theorems settling
specification claims about it.

Modelling conventions:
* C byte values (`unsigned char`) are `Nat` values, with `< 256` bounds
  carried as hypotheses where a theorem needs them.
* C strings are Lean `String`s / `List Char`s.  Reads past the terminating
  NUL (which in the program's call sites hit the zero bytes of the
  surrounding fixed-size buffer) yield the NUL character.
* The external OpenSSL primitives (the AES-256 block permutation and the
  PBKDF2 key-derivation function) are kept abstract as a `CipherModel`
  structure; everything implemented in cmdset.c itself (the base64 codec,
  the envelope layout, the preset-store logic) and everything determined by
  the primitive's name (CBC chaining and PKCS#7 padding, as performed by
  `EVP_aes_256_cbc` with padding enabled) is embedded concretely.
* File I/O and the interactive prompt are modelled by passing the parsed
  file contents / the entered text as explicit arguments.
-/

namespace Cmdset

/-! ## Constants (from the `#define`s in src/cmdset.c) -/

def MAX_PRESETS : Nat := 100
def MAX_NAME_LEN : Nat := 50
def MAX_COMMAND_LEN : Nat := 500
def SALT_LEN : Nat := 16
def IV_LEN : Nat := 16
def KEY_LEN : Nat := 32
def SESSION_TIMEOUT : Int := 300

/-! ## Bit-level helpers

The C code packs bytes with `<<` and `|` on disjoint bit ranges and unpacks
with `>>` and `&`.  We embed those expressions arithmetically and prove the
translations equal to the literal bit operations, so the arithmetic
definitions below are faithful to the source expressions.
-/

/-- Bit-or of values with disjoint bit ranges is addition. -/
theorem shiftLeft_lor_eq_add (k : Nat) : ∀ (a b : Nat), b < 2 ^ k →
    a <<< k ||| b = a <<< k + b := by
  induction k with
  | zero =>
    intro a b hb
    have hb0 : b = 0 := by omega
    subst hb0
    simp
  | succ n ih =>
    intro a b hb
    have hX : a <<< (n + 1) = 2 * (a <<< n) := by
      simp [Nat.shiftLeft_eq, Nat.pow_succ]; ring
    have hb2 : b / 2 < 2 ^ n := by
      rw [Nat.pow_succ] at hb; omega
    have key := ih a (b / 2) hb2
    have hdiv : (a <<< (n + 1) ||| b) / 2 = a <<< n ||| b / 2 := by
      rw [Nat.or_div_two]
      congr 1
      omega
    have hiff := Nat.or_mod_two_eq_one (a := a <<< (n + 1)) (b := b)
    omega

/-! ## Base64 codec

`encrypt_command_internal` (src/cmdset.c:1035-1048) encodes the byte string
`salt‖iv‖ciphertext` with the table
`"ABCDEFGHIJKLMNOPQRSTUVWXYZabcdefghijklmnopqrstuvwxyz0123456789+/"`,
three input bytes per four output symbols, padding a trailing short group
with `'='`.  `decrypt_command_internal` (src/cmdset.c:1077-1095) reverses
this with `strchr` lookups and no validation.
-/

def base64Chars : List Char :=
  "ABCDEFGHIJKLMNOPQRSTUVWXYZabcdefghijklmnopqrstuvwxyz0123456789+/".data

/-- The NUL character terminating a C string. -/
def nullChar : Char := Char.ofNat 0

/-- `base64_chars[n]` for a 6-bit index `n` (the C code only ever indexes
with values `< 64`, so the default is irrelevant). -/
def b64Char (n : Nat) : Char := base64Chars.getD n 'A'

/-- `strchr(base64_chars, c) - base64_chars`: the index of `c` in the base64
table.  `strchr` also finds the terminating NUL (position 64); for any other
character outside the table it returns `NULL` and the pointer subtraction is
undefined behaviour, modelled as `none`. -/
def charIdx (c : Char) : Option Nat :=
  if c = nullChar then some 64
  else match base64Chars.indexOf? c with
    | some i => some i
    | none => none

/-- One 3-byte group packed into 24 bits: the C expression
`(b1 << 16) | (b2 << 8) | b3` on `unsigned char` operands (each `< 256`),
see `combine3_eq_bits`. -/
def combine3 (b1 b2 b3 : Nat) : Nat := b1 * 65536 + b2 * 256 + b3

/-- Four 6-bit values packed into 24 bits: the C expression
`(c1 << 18) | (c2 << 12) | (c3 << 6) | c4` on values `< 64`,
see `combine4_eq_bits`. -/
def combine4 (c1 c2 c3 c4 : Nat) : Nat :=
  c1 * 262144 + c2 * 4096 + c3 * 64 + c4

/-- The arithmetic packing agrees with the C bit expression on byte
operands. -/
theorem combine3_eq_bits (b1 b2 b3 : Nat) (h2 : b2 < 256) (h3 : b3 < 256) :
    combine3 b1 b2 b3 = b1 <<< 16 ||| b2 <<< 8 ||| b3 := by
  rw [Nat.lor_assoc]
  have e1 : b2 <<< 8 ||| b3 = b2 <<< 8 + b3 :=
    shiftLeft_lor_eq_add 8 b2 b3 (by norm_num; omega)
  rw [e1]
  have e2 : b1 <<< 16 ||| (b2 <<< 8 + b3) = b1 <<< 16 + (b2 <<< 8 + b3) := by
    apply shiftLeft_lor_eq_add 16 b1
    have : b2 <<< 8 = b2 * 256 := by rw [Nat.shiftLeft_eq]
    norm_num [this]; omega
  rw [e2, Nat.shiftLeft_eq, Nat.shiftLeft_eq]
  simp [combine3]
  ring

/-- The arithmetic packing agrees with the C bit expression on 6-bit
operands. -/
theorem combine4_eq_bits (c1 c2 c3 c4 : Nat)
    (h2 : c2 < 64) (h3 : c3 < 64) (h4 : c4 < 64) :
    combine4 c1 c2 c3 c4 = c1 <<< 18 ||| c2 <<< 12 ||| c3 <<< 6 ||| c4 := by
  rw [Nat.lor_assoc, Nat.lor_assoc]
  have e34 : c3 <<< 6 ||| c4 = c3 <<< 6 + c4 :=
    shiftLeft_lor_eq_add 6 c3 c4 (by norm_num; omega)
  rw [e34]
  have h3' : c3 <<< 6 = c3 * 64 := by rw [Nat.shiftLeft_eq]
  have e2 : c2 <<< 12 ||| (c3 <<< 6 + c4) = c2 <<< 12 + (c3 <<< 6 + c4) := by
    apply shiftLeft_lor_eq_add 12 c2
    norm_num [h3']; omega
  rw [e2]
  have h2' : c2 <<< 12 = c2 * 4096 := by rw [Nat.shiftLeft_eq]
  have e1 : c1 <<< 18 ||| (c2 <<< 12 + (c3 <<< 6 + c4)) =
      c1 <<< 18 + (c2 <<< 12 + (c3 <<< 6 + c4)) := by
    apply shiftLeft_lor_eq_add 18 c1
    norm_num [h2', h3']; omega
  rw [e1, Nat.shiftLeft_eq]
  simp [combine4, h2', h3']
  ring

/-- `(x >> k) & 0x3F` in C is `x / 2 ^ k % 64`. -/
theorem extract6_eq_bits (x k : Nat) : x / 2 ^ k % 64 = x >>> k &&& 63 := by
  rw [Nat.shiftRight_eq_div_pow]
  have h : (63 : Nat) = 2 ^ 6 - 1 := by norm_num
  rw [h, Nat.and_pow_two_sub_one_eq_mod]

/-- `(x >> k) & 0xFF` in C is `x / 2 ^ k % 256`. -/
theorem extract8_eq_bits (x k : Nat) : x / 2 ^ k % 256 = x >>> k &&& 255 := by
  rw [Nat.shiftRight_eq_div_pow]
  have h : (255 : Nat) = 2 ^ 8 - 1 := by norm_num
  rw [h, Nat.and_pow_two_sub_one_eq_mod]

/-- The base64 encoding loop of `encrypt_command_internal`
(src/cmdset.c:1038-1047): three input bytes per iteration (`b2`/`b3` read
as 0 past the end), four output symbols per iteration, with the third and
fourth replaced by `'='` when the `i + 1 < combined_len` /
`i + 2 < combined_len` guards fail — that is, when the final group has
only one or two bytes.  Written with one equation per remaining-input
shape so the recursion is structural. -/
def b64encode : List Nat → List Char
  | [] => []
  | [b1] =>
    [b64Char (combine3 b1 0 0 / 262144 % 64),
     b64Char (combine3 b1 0 0 / 4096 % 64), '=', '=']
  | [b1, b2] =>
    [b64Char (combine3 b1 b2 0 / 262144 % 64),
     b64Char (combine3 b1 b2 0 / 4096 % 64),
     b64Char (combine3 b1 b2 0 / 64 % 64), '=']
  | b1 :: b2 :: b3 :: rest =>
    b64Char (combine3 b1 b2 b3 / 262144 % 64) ::
    b64Char (combine3 b1 b2 b3 / 4096 % 64) ::
    b64Char (combine3 b1 b2 b3 / 64 % 64) ::
    b64Char (combine3 b1 b2 b3 % 64) ::
    b64encode rest

/-- The base64 decoding loop of `decrypt_command_internal`
(src/cmdset.c:1086-1095), one equation per remaining-string shape so the
recursion is structural.  The loop reads `encrypted[i .. i+3]`; reads past
the end of the string yield the NUL terminator (and, beyond it, the zero
bytes of the surrounding command buffer), whose `strchr` lookup yields 64.
The second and third output bytes of a group are written only when
`i+2 < encrypted_len` / `i+3 < encrypted_len` (encoded here by the shape
of the remaining string) and the corresponding symbol is not `'='`.  A
lookup of a symbol outside the table (other than `'='` at offsets 2 and 3)
is undefined behaviour in the C, modelled as `none`; the C loop itself has
no failure path. -/
def b64decodeLoop : List Char → Option (List Nat)
  | [] => some []
  | [c0] =>
    match charIdx c0, charIdx nullChar, charIdx nullChar,
        charIdx nullChar with
    | some i1, some i2, some i3, some i4 =>
      some [combine4 i1 i2 i3 i4 / 65536 % 256]
    | _, _, _, _ => none
  | [c0, c1] =>
    match charIdx c0, charIdx c1, charIdx nullChar, charIdx nullChar with
    | some i1, some i2, some i3, some i4 =>
      some [combine4 i1 i2 i3 i4 / 65536 % 256]
    | _, _, _, _ => none
  | [c0, c1, c2] =>
    match charIdx c0, charIdx c1,
        (if c2 = '=' then some 0 else charIdx c2), charIdx nullChar with
    | some i1, some i2, some i3, some i4 =>
      some (combine4 i1 i2 i3 i4 / 65536 % 256 ::
        (if c2 ≠ '=' then [combine4 i1 i2 i3 i4 / 256 % 256] else []))
    | _, _, _, _ => none
  | c0 :: c1 :: c2 :: c3 :: rest =>
    match charIdx c0, charIdx c1,
        (if c2 = '=' then some 0 else charIdx c2),
        (if c3 = '=' then some 0 else charIdx c3) with
    | some i1, some i2, some i3, some i4 =>
      match b64decodeLoop rest with
      | some tail =>
        some (combine4 i1 i2 i3 i4 / 65536 % 256 ::
          ((if c2 ≠ '=' then [combine4 i1 i2 i3 i4 / 256 % 256] else []) ++
           (if c3 ≠ '=' then [combine4 i1 i2 i3 i4 % 256] else []) ++ tail))
      | none => none
    | _, _, _, _ => none

/-! ### Codec lemmas -/

set_option maxRecDepth 100000 in
theorem charIdx_b64Char : ∀ x, x < 64 → charIdx (b64Char x) = some x := by decide

set_option maxRecDepth 100000 in
theorem b64Char_ne_pad : ∀ x, x < 64 → b64Char x ≠ '=' := by decide

set_option maxRecDepth 100000 in
theorem b64Char_ne_null : ∀ x, x < 64 → b64Char x ≠ nullChar := by decide


theorem b64decodeLoop_group (x1 x2 x3 x4 : Nat) (t : List Char)
    (h1 : x1 < 64) (h2 : x2 < 64) (h3 : x3 < 64) (h4 : x4 < 64) :
    b64decodeLoop (b64Char x1 :: b64Char x2 :: b64Char x3 :: b64Char x4 :: t) =
      match b64decodeLoop t with
      | some tail => some (combine4 x1 x2 x3 x4 / 65536 % 256 ::
          combine4 x1 x2 x3 x4 / 256 % 256 :: combine4 x1 x2 x3 x4 % 256 :: tail)
      | none => none := by
  have n3 := b64Char_ne_pad x3 h3
  have n4 := b64Char_ne_pad x4 h4
  simp only [b64decodeLoop, charIdx_b64Char x1 h1, charIdx_b64Char x2 h2,
    charIdx_b64Char x3 h3, charIdx_b64Char x4 h4, if_neg n3, if_neg n4,
    ne_eq, not_false_eq_true, if_pos]
  rcases b64decodeLoop t with _ | tail
  · rfl
  · simp [n3, n4]

theorem b64decodeLoop_pad1 (x1 x2 x3 : Nat)
    (h1 : x1 < 64) (h2 : x2 < 64) (h3 : x3 < 64) :
    b64decodeLoop [b64Char x1, b64Char x2, b64Char x3, '='] =
      some [combine4 x1 x2 x3 0 / 65536 % 256,
        combine4 x1 x2 x3 0 / 256 % 256] := by
  have n3 := b64Char_ne_pad x3 h3
  simp only [b64decodeLoop, charIdx_b64Char x1 h1, charIdx_b64Char x2 h2,
    charIdx_b64Char x3 h3, if_neg n3, if_pos rfl]
  simp [n3]

theorem b64decodeLoop_pad2 (x1 x2 : Nat) (h1 : x1 < 64) (h2 : x2 < 64) :
    b64decodeLoop [b64Char x1, b64Char x2, '=', '='] =
      some [combine4 x1 x2 0 0 / 65536 % 256] := by
  simp only [b64decodeLoop, charIdx_b64Char x1 h1, charIdx_b64Char x2 h2,
    if_pos rfl]
  simp

theorem b64decodeLoop_b64encode (bs : List Nat) (h : ∀ b ∈ bs, b < 256) :
    b64decodeLoop (b64encode bs) = some bs := by
  match bs with
  | [] => simp [b64encode, b64decodeLoop]
  | [b1] =>
    have hb1 : b1 < 256 := h b1 (by simp)
    rw [b64encode, b64decodeLoop_pad2 _ _ (Nat.mod_lt _ (by norm_num))
      (Nat.mod_lt _ (by norm_num))]
    simp only [Option.some.injEq, List.cons.injEq, and_true]
    simp only [combine3, combine4]
    omega
  | [b1, b2] =>
    have hb1 : b1 < 256 := h b1 (by simp)
    have hb2 : b2 < 256 := h b2 (by simp)
    rw [b64encode, b64decodeLoop_pad1 _ _ _ (Nat.mod_lt _ (by norm_num))
      (Nat.mod_lt _ (by norm_num)) (Nat.mod_lt _ (by norm_num))]
    simp only [Option.some.injEq, List.cons.injEq, and_true]
    simp only [combine3, combine4]
    constructor
    · omega
    · omega
  | b1 :: b2 :: b3 :: rest =>
    have hb1 : b1 < 256 := h b1 (by simp)
    have hb2 : b2 < 256 := h b2 (by simp)
    have hb3 : b3 < 256 := h b3 (by simp)
    have ih := b64decodeLoop_b64encode rest (fun b hb => h b (by simp [hb]))
    rw [show b64encode (b1 :: b2 :: b3 :: rest) =
      b64Char (combine3 b1 b2 b3 / 262144 % 64) ::
      b64Char (combine3 b1 b2 b3 / 4096 % 64) ::
      b64Char (combine3 b1 b2 b3 / 64 % 64) ::
      b64Char (combine3 b1 b2 b3 % 64) :: b64encode rest from rfl,
      b64decodeLoop_group _ _ _ _ _ (Nat.mod_lt _ (by norm_num))
        (Nat.mod_lt _ (by norm_num)) (Nat.mod_lt _ (by norm_num))
        (Nat.mod_lt _ (by norm_num)),
      ih]
    simp only [Option.some.injEq, List.cons.injEq, and_true]
    simp only [combine3, combine4]
    refine ⟨by omega, by omega, by omega⟩

theorem charIdx_isSome_of_mem (c : Char) (h : c ∈ base64Chars) :
    (charIdx c).isSome := by
  unfold charIdx
  split
  · simp
  · rcases hx : base64Chars.indexOf? c with _ | i
    · rw [List.indexOf?_eq_none_iff] at hx
      exact absurd (by simp) (hx c h)
    · simp [hx]

theorem charIdx_nullChar : charIdx nullChar = some 64 := by decide

theorem b64decodeLoop_isSome_of_alphabet (s : List Char)
    (h : ∀ c ∈ s, c ∈ base64Chars) : (b64decodeLoop s).isSome := by
  match s with
  | [] => simp [b64decodeLoop]
  | [c0] =>
    obtain ⟨i1, e1⟩ := Option.isSome_iff_exists.mp
      (charIdx_isSome_of_mem c0 (h c0 (by simp)))
    simp [b64decodeLoop, e1, charIdx_nullChar]
  | [c0, c1] =>
    obtain ⟨i1, e1⟩ := Option.isSome_iff_exists.mp
      (charIdx_isSome_of_mem c0 (h c0 (by simp)))
    obtain ⟨i2, e2⟩ := Option.isSome_iff_exists.mp
      (charIdx_isSome_of_mem c1 (h c1 (by simp)))
    simp [b64decodeLoop, e1, e2, charIdx_nullChar]
  | [c0, c1, c2] =>
    obtain ⟨i1, e1⟩ := Option.isSome_iff_exists.mp
      (charIdx_isSome_of_mem c0 (h c0 (by simp)))
    obtain ⟨i2, e2⟩ := Option.isSome_iff_exists.mp
      (charIdx_isSome_of_mem c1 (h c1 (by simp)))
    obtain ⟨i3, e3⟩ := Option.isSome_iff_exists.mp
      (charIdx_isSome_of_mem c2 (h c2 (by simp)))
    have e3' : (if c2 = '=' then some 0 else charIdx c2).isSome := by
      split
      · simp
      · simp [e3]
    obtain ⟨j3, f3⟩ := Option.isSome_iff_exists.mp e3'
    simp [b64decodeLoop, e1, e2, f3, charIdx_nullChar]
  | c0 :: c1 :: c2 :: c3 :: rest =>
    obtain ⟨i1, e1⟩ := Option.isSome_iff_exists.mp
      (charIdx_isSome_of_mem c0 (h c0 (by simp)))
    obtain ⟨i2, e2⟩ := Option.isSome_iff_exists.mp
      (charIdx_isSome_of_mem c1 (h c1 (by simp)))
    obtain ⟨i3, e3⟩ := Option.isSome_iff_exists.mp
      (charIdx_isSome_of_mem c2 (h c2 (by simp)))
    obtain ⟨i4, e4⟩ := Option.isSome_iff_exists.mp
      (charIdx_isSome_of_mem c3 (h c3 (by simp)))
    have ih := b64decodeLoop_isSome_of_alphabet rest
      (fun c hc => h c (by simp [hc]))
    obtain ⟨tail, et⟩ := Option.isSome_iff_exists.mp ih
    rw [b64decodeLoop]
    have e3' : (if c2 = '=' then some 0 else charIdx c2).isSome := by
      split
      · simp
      · simp [e3]
    have e4' : (if c3 = '=' then some 0 else charIdx c3).isSome := by
      split
      · simp
      · simp [e4]
    obtain ⟨j3, f3⟩ := Option.isSome_iff_exists.mp e3'
    obtain ⟨j4, f4⟩ := Option.isSome_iff_exists.mp e4'
    simp [e1, e2, f3, f4, et]

/-! ## Cipher envelope

`encrypt_command_internal` / `decrypt_command_internal`
(src/cmdset.c:986-1165) use the external OpenSSL primitives:
`PKCS5_PBKDF2_HMAC(password, strlen(password), salt, 16, 10000, EVP_sha256(),
32, key)` via `derive_key` (src/cmdset.c:895-899), and AES-256 in CBC mode
with PKCS#7 padding via `EVP_EncryptInit_ex(ctx, EVP_aes_256_cbc(), ...)`
with `EVP_CIPHER_CTX_set_padding(ctx, 1)`.  The AES-256 block permutation
and the PBKDF are abstract fields of `CipherModel` (any function models the
PBKDF, because the code relies only on it being deterministic); the CBC
chaining and the PKCS#7 padding that the `EVP_aes_256_cbc` envelope
performs around the block permutation are embedded concretely below.
-/

/-- Abstract model of the external crypto primitives: a keyed block
permutation on 16-byte blocks (AES-256) and a deterministic key-derivation
function (PBKDF2-HMAC-SHA256, 10000 iterations, 32-byte output). -/
structure CipherModel where
  blockEnc : List Nat → List Nat → List Nat
  blockDec : List Nat → List Nat → List Nat
  kdf : String → List Nat → List Nat
  blockDec_blockEnc : ∀ k b, b.length = 16 → blockDec k (blockEnc k b) = b
  blockEnc_length : ∀ k b, b.length = 16 → (blockEnc k b).length = 16
  blockEnc_lt : ∀ k b, b.length = 16 → (∀ x ∈ b, x < 256) →
    ∀ x ∈ blockEnc k b, x < 256

/-- PKCS#7 padding to a 16-byte block boundary, as applied by
`EVP_EncryptFinal_ex` with padding enabled. -/
def pkcs7pad (p : List Nat) : List Nat :=
  p ++ List.replicate (16 - p.length % 16) (16 - p.length % 16)

/-- PKCS#7 padding check and removal, as applied by `EVP_DecryptFinal_ex`
with padding enabled: the last byte `n` must be in `1..16` and the final
`n` bytes must all equal `n`, otherwise decryption fails. -/
def pkcs7unpad (p : List Nat) : Option (List Nat) :=
  match p.getLast? with
  | none => none
  | some n =>
    if 1 ≤ n ∧ n ≤ 16 ∧ n ≤ p.length ∧
        (p.drop (p.length - n)).all (fun x => x = n) then
      some (p.take (p.length - n))
    else none

/-- Byte-wise xor of two blocks. -/
def zipXor (a b : List Nat) : List Nat := List.zipWith (fun x y => x ^^^ y) a b

/-- Split a byte string into consecutive 16-byte blocks (a final short
chunk kept as-is), written with an explicit 16-element pattern so the
recursion is structural; `toBlocks_cons` states the take/drop
characterization. -/
def toBlocks : List Nat → List (List Nat)
  | [] => []
  | b0 :: b1 :: b2 :: b3 :: b4 :: b5 :: b6 :: b7 ::
    b8 :: b9 :: b10 :: b11 :: b12 :: b13 :: b14 :: b15 :: rest =>
    [b0, b1, b2, b3, b4, b5, b6, b7, b8, b9, b10, b11, b12, b13, b14, b15] ::
      toBlocks rest
  | l => [l]

theorem toBlocks_cons (x : Nat) (rest : List Nat) :
    toBlocks (x :: rest) =
      ((x :: rest).take 16) :: toBlocks ((x :: rest).drop 16) := by
  match rest with
  | [] => rfl
  | [a1] => rfl
  | [a1, a2] => rfl
  | [a1, a2, a3] => rfl
  | [a1, a2, a3, a4] => rfl
  | [a1, a2, a3, a4, a5] => rfl
  | [a1, a2, a3, a4, a5, a6] => rfl
  | [a1, a2, a3, a4, a5, a6, a7] => rfl
  | [a1, a2, a3, a4, a5, a6, a7, a8] => rfl
  | [a1, a2, a3, a4, a5, a6, a7, a8, a9] => rfl
  | [a1, a2, a3, a4, a5, a6, a7, a8, a9, a10] => rfl
  | [a1, a2, a3, a4, a5, a6, a7, a8, a9, a10, a11] => rfl
  | [a1, a2, a3, a4, a5, a6, a7, a8, a9, a10, a11, a12] => rfl
  | [a1, a2, a3, a4, a5, a6, a7, a8, a9, a10, a11, a12, a13] => rfl
  | [a1, a2, a3, a4, a5, a6, a7, a8, a9, a10, a11, a12, a13, a14] => rfl
  | a1 :: a2 :: a3 :: a4 :: a5 :: a6 :: a7 :: a8 ::
    a9 :: a10 :: a11 :: a12 :: a13 :: a14 :: a15 :: rest2 => rfl

/-- CBC encryption of a block sequence with chaining value `prev`
(initially the IV). -/
def cbcEncBlocks (cm : CipherModel) (key : List Nat) :
    List Nat → List (List Nat) → List (List Nat)
  | _, [] => []
  | prev, b :: rest =>
    cm.blockEnc key (zipXor prev b) ::
      cbcEncBlocks cm key (cm.blockEnc key (zipXor prev b)) rest

/-- CBC decryption of a block sequence with chaining value `prev`
(initially the IV). -/
def cbcDecBlocks (cm : CipherModel) (key : List Nat) :
    List Nat → List (List Nat) → List (List Nat)
  | _, [] => []
  | prev, c :: rest => zipXor prev (cm.blockDec key c) :: cbcDecBlocks cm key c rest

/-- `EVP_EncryptUpdate` + `EVP_EncryptFinal_ex` with `EVP_aes_256_cbc` and
padding enabled: PKCS#7-pad, then CBC-encrypt. -/
def evpEncrypt (cm : CipherModel) (key iv pt : List Nat) : List Nat :=
  (cbcEncBlocks cm key iv (toBlocks (pkcs7pad pt))).flatten

/-- `EVP_DecryptUpdate` + `EVP_DecryptFinal_ex` with `EVP_aes_256_cbc` and
padding enabled: CBC-decrypt, then check and strip the PKCS#7 padding,
failing (`none`) when the ciphertext is not block-aligned or the padding
check fails. -/
def evpDecrypt (cm : CipherModel) (key iv ct : List Nat) : Option (List Nat) :=
  if ct.length % 16 = 0 then
    pkcs7unpad ((cbcDecBlocks cm key iv (toBlocks ct)).flatten)
  else none

/-- `temp_plaintext[plaintext_len] = 0; strcpy(plaintext, temp_plaintext)`
(src/cmdset.c:1142-1143): the copied C string is the decrypted bytes up to
the first NUL. -/
def cTruncate (bs : List Nat) : List Nat := bs.takeWhile (fun b => b ≠ 0)

/-- The crypto core of `encrypt_command_internal` (src/cmdset.c:986-1072):
derive a key from the password and the fresh `salt`, AES-256-CBC-encrypt
the plaintext under it with the fresh `iv`, and base64-encode
`salt ‖ iv ‖ ciphertext`.  Password acquisition and the session-cache side
effects are modelled separately (`get_session_password`); the randomly
drawn `salt` and `iv` are explicit arguments. -/
def encrypt_command (cm : CipherModel) (plaintext : List Nat)
    (password : String) (salt iv : List Nat) : List Char :=
  b64encode (salt ++ iv ++ evpEncrypt cm (cm.kdf password salt) iv plaintext)

/-- The crypto core of `decrypt_command_internal` (src/cmdset.c:1074-1165):
base64-decode the envelope, split off the 16-byte salt and 16-byte IV,
re-derive the key, and AES-256-CBC-decrypt.  `none` covers both the
undefined behaviour of the decode loop on symbols outside the table and
the `EVP_DecryptFinal_ex` failure return (wrong password / corrupt data).

Note the C computes `decoded_len = (strlen(encrypted) * 3) / 4`
(src/cmdset.c:1079) and hands `ciphertext_len = decoded_len - 32` to
`EVP_DecryptUpdate`, but the decode loop writes fewer bytes than
`decoded_len` whenever the envelope ends in `'='` padding — the
`malloc`ed bytes past the loop's writes stay uninitialized (modelled as
zeros; the functions below only ever consult their count, through the
block-alignment check, never their values). -/
def decrypt_command (cm : CipherModel) (encrypted : List Char)
    (password : String) : Option (List Nat) :=
  match b64decodeLoop encrypted with
  | none => none
  | some written =>
    let decoded := written ++
      List.replicate (encrypted.length * 3 / 4 - written.length) 0
    match evpDecrypt cm (cm.kdf password (decoded.take 16))
        ((decoded.drop 16).take 16) (decoded.drop 32) with
    | none => none
    | some pt => some (cTruncate pt)

theorem pkcs7unpad_pkcs7pad (p : List Nat) : pkcs7unpad (pkcs7pad p) = some p := by
  have hn : 1 ≤ 16 - p.length % 16 ∧ 16 - p.length % 16 ≤ 16 := by omega
  unfold pkcs7pad pkcs7unpad
  rw [List.getLast?_append, List.getLast?_replicate]
  rw [if_neg (by omega)]
  simp only [Option.or_some]
  have hlen : (p ++ List.replicate (16 - p.length % 16) (16 - p.length % 16)).length
      = p.length + (16 - p.length % 16) := by simp
  rw [if_pos]
  · congr 1
    rw [hlen]
    have : p.length + (16 - p.length % 16) - (16 - p.length % 16) = p.length := by omega
    rw [this, List.take_left' rfl]
  · refine ⟨hn.1, hn.2, ?_, ?_⟩
    · rw [hlen]; omega
    · rw [hlen]
      have : p.length + (16 - p.length % 16) - (16 - p.length % 16) = p.length := by omega
      rw [this, List.drop_left' rfl]
      simp

theorem zipXor_length (a b : List Nat) :
    (zipXor a b).length = min a.length b.length := by
  simp [zipXor]

theorem zipXor_zipXor_cancel : ∀ (a b : List Nat), a.length = b.length →
    zipXor a (zipXor a b) = b := by
  intro a
  induction a with
  | nil =>
    intro b hb
    cases b
    · rfl
    · simp at hb
  | cons x xs ih =>
    intro b hb
    cases b with
    | nil => simp at hb
    | cons y ys =>
      simp only [List.length_cons] at hb
      simp only [zipXor, List.zipWith_cons_cons, List.cons.injEq] at *
      constructor
      · rw [← Nat.xor_assoc, Nat.xor_self, Nat.zero_xor]
      · exact ih ys (by omega)

theorem zipXor_lt (a b : List Nat) (ha : ∀ x ∈ a, x < 256)
    (hb : ∀ x ∈ b, x < 256) : ∀ x ∈ zipXor a b, x < 256 := by
  intro x hx
  unfold zipXor at hx
  rw [List.mem_iff_getElem] at hx
  obtain ⟨i, hi, hxi⟩ := hx
  have hia : i < a.length := by simp at hi; omega
  have hib : i < b.length := by simp at hi; omega
  rw [List.getElem_zipWith] at hxi
  subst hxi
  have h1 : a[i] < 256 := ha _ (List.getElem_mem _)
  have h2 : b[i] < 256 := hb _ (List.getElem_mem _)
  have h256 : (256 : Nat) = 2 ^ 8 := by norm_num
  rw [h256] at h1 h2 ⊢
  exact Nat.xor_lt_two_pow h1 h2

theorem pkcs7pad_lt (p : List Nat) (hp : ∀ x ∈ p, x < 256) :
    ∀ x ∈ pkcs7pad p, x < 256 := by
  intro x hx
  unfold pkcs7pad at hx
  rw [List.mem_append] at hx
  rcases hx with hx | hx
  · exact hp x hx
  · have := List.eq_of_mem_replicate hx
    omega

theorem toBlocks_mem_mem (l : List Nat) :
    ∀ b ∈ toBlocks l, ∀ x ∈ b, x ∈ l := by
  match l with
  | [] => simp [toBlocks]
  | y :: rest =>
    have ih := toBlocks_mem_mem ((y :: rest).drop 16)
    rw [toBlocks_cons]
    intro b hb x hx
    rcases List.mem_cons.1 hb with hb | hb
    · subst hb
      exact List.take_subset _ _ hx
    · exact List.drop_subset _ _ (ih b hb x hx)
termination_by l.length
decreasing_by simp; omega

theorem toBlocks_flatten (l : List Nat) : (toBlocks l).flatten = l := by
  match l with
  | [] => simp [toBlocks]
  | x :: rest =>
    have ih := toBlocks_flatten ((x :: rest).drop 16)
    rw [toBlocks_cons]
    simp only [List.flatten_cons, ih, List.take_append_drop]
termination_by l.length
decreasing_by simp; omega

theorem toBlocks_mem_length (l : List Nat) (h : l.length % 16 = 0) :
    ∀ b ∈ toBlocks l, b.length = 16 := by
  match l with
  | [] => simp [toBlocks]
  | x :: rest =>
    have hge : 16 ≤ (x :: rest).length := by
      have hpos : 0 < (x :: rest).length := by simp
      omega
    have ih := toBlocks_mem_length ((x :: rest).drop 16)
      (by simp only [List.length_drop]; omega)
    rw [toBlocks_cons]
    intro b hb
    rcases List.mem_cons.1 hb with hb | hb
    · subst hb
      simp only [List.length_take]
      omega
    · exact ih b hb
termination_by l.length
decreasing_by simp; omega

theorem toBlocks_append16 (b t : List Nat) (hb : b.length = 16) :
    toBlocks (b ++ t) = b :: toBlocks t := by
  match b, hb with
  | x :: rest, hb =>
    rw [List.cons_append, toBlocks_cons]
    rw [← List.cons_append]
    congr 1
    · rw [List.take_left' hb]
    · rw [List.drop_left' hb]

theorem flatten_length_all16 (bs : List (List Nat))
    (h : ∀ b ∈ bs, b.length = 16) : bs.flatten.length = 16 * bs.length := by
  induction bs with
  | nil => simp
  | cons b rest ih =>
    simp only [List.flatten_cons, List.length_append, List.length_cons,
      h b (by simp), ih (fun b hb => h b (by simp [hb]))]
    ring

theorem toBlocks_flatten_all16 (bs : List (List Nat))
    (h : ∀ b ∈ bs, b.length = 16) : toBlocks bs.flatten = bs := by
  induction bs with
  | nil => simp [toBlocks]
  | cons b rest ih =>
    rw [List.flatten_cons, toBlocks_append16 b rest.flatten (h b (by simp)),
      ih (fun b hb => h b (by simp [hb]))]

theorem cbcEncBlocks_mem (cm : CipherModel) (key : List Nat) :
    ∀ (bs : List (List Nat)) (prev : List Nat), prev.length = 16 →
    (∀ x ∈ prev, x < 256) →
    (∀ b ∈ bs, b.length = 16) → (∀ b ∈ bs, ∀ x ∈ b, x < 256) →
    ∀ c ∈ cbcEncBlocks cm key prev bs, c.length = 16 ∧ ∀ x ∈ c, x < 256 := by
  intro bs
  induction bs with
  | nil => intro prev _ _ _ _ c hc; simp [cbcEncBlocks] at hc
  | cons b rest ih =>
    intro prev hprev hprevlt hall halllt c hc
    have hb : (zipXor prev b).length = 16 := by
      rw [zipXor_length, hprev, hall b (by simp)]
      simp
    have hblt : ∀ x ∈ zipXor prev b, x < 256 :=
      zipXor_lt prev b hprevlt (halllt b (by simp))
    rcases List.mem_cons.1 hc with hc | hc
    · subst hc
      exact ⟨cm.blockEnc_length key _ hb, cm.blockEnc_lt key _ hb hblt⟩
    · exact ih (cm.blockEnc key (zipXor prev b))
        (cm.blockEnc_length key _ hb)
        (cm.blockEnc_lt key _ hb hblt)
        (fun b hb => hall b (by simp [hb]))
        (fun b hb => halllt b (by simp [hb])) c hc

theorem cbcDecBlocks_cbcEncBlocks (cm : CipherModel) (key : List Nat) :
    ∀ (bs : List (List Nat)) (prev : List Nat), prev.length = 16 →
    (∀ b ∈ bs, b.length = 16) →
    cbcDecBlocks cm key prev (cbcEncBlocks cm key prev bs) = bs := by
  intro bs
  induction bs with
  | nil => intro prev _ _; simp [cbcEncBlocks, cbcDecBlocks]
  | cons b rest ih =>
    intro prev hprev hall
    have hb16 : b.length = 16 := hall b (by simp)
    have hxb : (zipXor prev b).length = 16 := by
      rw [zipXor_length, hprev, hb16]; simp
    rw [cbcEncBlocks, cbcDecBlocks]
    congr 1
    · rw [cm.blockDec_blockEnc key _ hxb]
      exact zipXor_zipXor_cancel prev b (by omega)
    · exact ih (cm.blockEnc key (zipXor prev b))
        (cm.blockEnc_length key _ hxb)
        (fun b hb => hall b (by simp [hb]))

theorem evpDecrypt_evpEncrypt (cm : CipherModel) (key iv pt : List Nat)
    (hiv : iv.length = 16) (hivlt : ∀ x ∈ iv, x < 256)
    (hptlt : ∀ x ∈ pt, x < 256) :
    evpDecrypt cm key iv (evpEncrypt cm key iv pt) = some pt := by
  have hpadmod : (pkcs7pad pt).length % 16 = 0 := by
    simp only [pkcs7pad, List.length_append, List.length_replicate]
    omega
  have hblocks := toBlocks_mem_length (pkcs7pad pt) hpadmod
  have hblockslt : ∀ b ∈ toBlocks (pkcs7pad pt), ∀ x ∈ b, x < 256 :=
    fun b hb x hx =>
      pkcs7pad_lt pt hptlt x (toBlocks_mem_mem (pkcs7pad pt) b hb x hx)
  have hct : ∀ c ∈ cbcEncBlocks cm key iv (toBlocks (pkcs7pad pt)),
      c.length = 16 :=
    fun c hc => (cbcEncBlocks_mem cm key _ iv hiv hivlt hblocks hblockslt c hc).1
  have hctlen := flatten_length_all16 _ hct
  unfold evpEncrypt evpDecrypt
  rw [if_pos (by rw [hctlen]; omega)]
  rw [toBlocks_flatten_all16 _ hct,
    cbcDecBlocks_cbcEncBlocks cm key _ iv hiv hblocks,
    toBlocks_flatten, pkcs7unpad_pkcs7pad]

theorem cTruncate_eq_self (bs : List Nat) (h : ∀ b ∈ bs, b ≠ 0) :
    cTruncate bs = bs := by
  unfold cTruncate
  rw [List.takeWhile_eq_self_iff]
  intro x hx
  simpa using h x hx

theorem encrypt_command_bytes_lt (cm : CipherModel) (p : List Nat) (w : String)
    (salt iv : List Nat)
    (hp : ∀ b ∈ p, b < 256)
    (hsb : ∀ b ∈ salt, b < 256) (hivlen : iv.length = 16)
    (hivb : ∀ b ∈ iv, b < 256) :
    ∀ b ∈ salt ++ iv ++ evpEncrypt cm (cm.kdf w salt) iv p, b < 256 := by
  have hpadmod : (pkcs7pad p).length % 16 = 0 := by
    simp only [pkcs7pad, List.length_append, List.length_replicate]
    omega
  have hblocks := toBlocks_mem_length (pkcs7pad p) hpadmod
  have hblockslt : ∀ b ∈ toBlocks (pkcs7pad p), ∀ x ∈ b, x < 256 :=
    fun b hb x hx =>
      pkcs7pad_lt p hp x (toBlocks_mem_mem (pkcs7pad p) b hb x hx)
  intro b hb
  simp only [List.mem_append] at hb
  rcases hb with (hb | hb) | hb
  · exact hsb b hb
  · exact hivb b hb
  · unfold evpEncrypt at hb
    rw [List.mem_flatten] at hb
    obtain ⟨c, hc, hbc⟩ := hb
    exact (cbcEncBlocks_mem cm (cm.kdf w salt) _ iv hivlen hivb hblocks
      hblockslt c hc).2 b hbc

theorem b64encode_length (bs : List Nat) :
    (b64encode bs).length = (bs.length + 2) / 3 * 4 := by
  match bs with
  | [] => rfl
  | [b1] => simp [b64encode]
  | [b1, b2] => simp [b64encode]
  | b1 :: b2 :: b3 :: rest =>
    have ih := b64encode_length rest
    simp only [b64encode, List.length_cons, ih]
    omega

theorem cbcEncBlocks_length (cm : CipherModel) (key : List Nat) :
    ∀ (bs : List (List Nat)) (prev : List Nat),
    (cbcEncBlocks cm key prev bs).length = bs.length := by
  intro bs
  induction bs with
  | nil => intro prev; rfl
  | cons b rest ih =>
    intro prev
    simp only [cbcEncBlocks, List.length_cons, ih]

theorem cbcEncBlocks_mem_length (cm : CipherModel) (key : List Nat) :
    ∀ (bs : List (List Nat)) (prev : List Nat), prev.length = 16 →
    (∀ b ∈ bs, b.length = 16) →
    ∀ c ∈ cbcEncBlocks cm key prev bs, c.length = 16 := by
  intro bs
  induction bs with
  | nil => intro prev _ _ c hc; simp [cbcEncBlocks] at hc
  | cons b rest ih =>
    intro prev hprev hall c hc
    have hb : (zipXor prev b).length = 16 := by
      rw [zipXor_length, hprev, hall b (by simp)]
      simp
    rcases List.mem_cons.1 hc with hc | hc
    · subst hc
      exact cm.blockEnc_length key _ hb
    · exact ih (cm.blockEnc key (zipXor prev b))
        (cm.blockEnc_length key _ hb)
        (fun b hb => hall b (by simp [hb])) c hc

theorem toBlocks_length (l : List Nat) (h : l.length % 16 = 0) :
    (toBlocks l).length = l.length / 16 := by
  match l with
  | [] => simp [toBlocks]
  | x :: rest =>
    have hge : 16 ≤ (x :: rest).length := by
      have hpos : 0 < (x :: rest).length := by simp
      omega
    have ih := toBlocks_length ((x :: rest).drop 16)
      (by simp only [List.length_drop]; omega)
    rw [toBlocks_cons]
    rw [List.length_cons, ih]
    simp only [List.length_drop]
    omega
termination_by l.length
decreasing_by simp; omega

/-- Length of the ciphertext produced by the padded CBC encryption: the
padded plaintext length. -/
theorem evpEncrypt_length (cm : CipherModel) (key iv pt : List Nat)
    (hiv : iv.length = 16) :
    (evpEncrypt cm key iv pt).length = (pkcs7pad pt).length := by
  have hpadmod : (pkcs7pad pt).length % 16 = 0 := by
    simp only [pkcs7pad, List.length_append, List.length_replicate]
    omega
  have hblocks := toBlocks_mem_length (pkcs7pad pt) hpadmod
  have hct : ∀ c ∈ cbcEncBlocks cm key iv (toBlocks (pkcs7pad pt)),
      c.length = 16 :=
    cbcEncBlocks_mem_length cm key _ iv hiv hblocks
  unfold evpEncrypt
  rw [flatten_length_all16 _ hct, cbcEncBlocks_length,
    toBlocks_length _ hpadmod]
  omega

/-- **C1 (code bug).**  The round trip `decrypt(encrypt(p, w), w) = p`
fails for every plaintext whose salt‖iv‖ciphertext bundle is not a
multiple of 3 bytes long (equivalently, whenever the envelope text ends in
`'='` padding — e.g. every plaintext of 16..47 bytes): the C computes
`ciphertext_len` from `decoded_len = (strlen * 3) / 4`, which over-counts
the decoded bytes by the number of `'='` pads, so `EVP_DecryptFinal_ex`
rejects the non-block-aligned ciphertext even under the correct password.
This holds for every cipher model, i.e. it is a structural consequence of
the length bookkeeping, independent of AES. -/
theorem C1_roundtrip_fails (cm : CipherModel) (p : List Nat) (w : String)
    (salt iv : List Nat)
    (hplen : p.length < MAX_COMMAND_LEN)
    (hpb : ∀ b ∈ p, 0 < b ∧ b < 256)
    (hs : salt.length = SALT_LEN) (hsb : ∀ b ∈ salt, b < 256)
    (hivlen : iv.length = IV_LEN) (hivb : ∀ b ∈ iv, b < 256)
    (hk : (32 + (pkcs7pad p).length) % 3 ≠ 0) :
    decrypt_command cm (encrypt_command cm p w salt iv) w = none := by
  have hs' : salt.length = 16 := hs
  have hiv' : iv.length = 16 := hivlen
  have hall := encrypt_command_bytes_lt cm p w salt iv
    (fun b hb => (hpb b hb).2) hsb hiv' hivb
  unfold encrypt_command decrypt_command
  rw [b64decodeLoop_b64encode _ hall]
  have hpadmod : (pkcs7pad p).length % 16 = 0 := by
    simp only [pkcs7pad, List.length_append, List.length_replicate]
    omega
  have hctlen : (evpEncrypt cm (cm.kdf w salt) iv p).length =
      (pkcs7pad p).length := evpEncrypt_length cm (cm.kdf w salt) iv p hiv'
  have hbad : ¬ (((salt ++ iv ++ evpEncrypt cm (cm.kdf w salt) iv p ++
      List.replicate ((b64encode (salt ++ iv ++ evpEncrypt cm
        (cm.kdf w salt) iv p)).length * 3 / 4 -
        (salt ++ iv ++ evpEncrypt cm (cm.kdf w salt) iv p).length)
        0).drop 32).length % 16 = 0) := by
    simp only [List.length_drop, List.length_append, List.length_replicate,
      b64encode_length, hs', hiv', hctlen]
    omega
  simp only [evpDecrypt, if_neg hbad]

/-- The round trip does hold on the lengths where no `'='` padding
appears in the envelope (`32 + padded-length` divisible by 3, e.g.
plaintexts of up to 15 bytes): sanity counterpart to
`C1_roundtrip_fails`, and the behaviour the spec intends for all
lengths. -/
theorem decrypt_encrypt_roundtrip_exact (cm : CipherModel) (p : List Nat)
    (w : String) (salt iv : List Nat)
    (hpb : ∀ b ∈ p, 0 < b ∧ b < 256)
    (hs : salt.length = SALT_LEN) (hsb : ∀ b ∈ salt, b < 256)
    (hivlen : iv.length = IV_LEN) (hivb : ∀ b ∈ iv, b < 256)
    (hk : (32 + (pkcs7pad p).length) % 3 = 0) :
    decrypt_command cm (encrypt_command cm p w salt iv) w = some p := by
  have hs' : salt.length = 16 := hs
  have hiv' : iv.length = 16 := hivlen
  have hall := encrypt_command_bytes_lt cm p w salt iv
    (fun b hb => (hpb b hb).2) hsb hiv' hivb
  unfold encrypt_command decrypt_command
  rw [b64decodeLoop_b64encode _ hall]
  dsimp only
  have hctlen : (evpEncrypt cm (cm.kdf w salt) iv p).length =
      (pkcs7pad p).length := evpEncrypt_length cm (cm.kdf w salt) iv p hiv'
  have hn : (salt ++ iv ++ evpEncrypt cm (cm.kdf w salt) iv p).length =
      32 + (pkcs7pad p).length := by
    simp [hs', hiv', hctlen]
    omega
  have hrep : (b64encode (salt ++ iv ++ evpEncrypt cm (cm.kdf w salt)
      iv p)).length * 3 / 4 -
      (salt ++ iv ++ evpEncrypt cm (cm.kdf w salt) iv p).length = 0 := by
    rw [b64encode_length, hn]
    omega
  rw [hrep]
  simp only [List.replicate_zero, List.append_nil]
  have htake : (salt ++ (iv ++ evpEncrypt cm (cm.kdf w salt) iv p)).take 16
      = salt := List.take_left' hs'
  have hdrop : (salt ++ (iv ++ evpEncrypt cm (cm.kdf w salt) iv p)).drop 16
      = iv ++ evpEncrypt cm (cm.kdf w salt) iv p := List.drop_left' hs'
  have hdrop32 : (salt ++ (iv ++ evpEncrypt cm (cm.kdf w salt) iv
      p)).drop 32 = evpEncrypt cm (cm.kdf w salt) iv p := by
    have h32 : (32 : Nat) = 16 + 16 := by norm_num
    rw [h32, ← List.drop_drop, hdrop, List.drop_left' hiv']
  simp only [List.append_assoc, htake, hdrop, hdrop32, List.take_left' hiv']
  rw [evpDecrypt_evpEncrypt cm (cm.kdf w salt) iv p hiv' hivb
    (fun b hb => (hpb b hb).2)]
  have hct := cTruncate_eq_self p (fun b hb => by have := hpb b hb; omega)
  simp [hct]

/-- **C7.**  Freshness of the envelope: each encryption draws a fresh
16-byte salt and 16-byte IV via `RAND_bytes`, and whenever the two runs'
`(salt, iv)` pairs differ, the resulting envelope texts differ — so two
calls to `encrypt(p, w)` never produce identical envelope text unless the
random source repeats both the salt and the IV. -/
theorem C7_envelope_freshness (cm : CipherModel) (p : List Nat) (w : String)
    (salt1 iv1 salt2 iv2 : List Nat)
    (hp : ∀ b ∈ p, b < 256)
    (hs1 : salt1.length = SALT_LEN) (hsb1 : ∀ b ∈ salt1, b < 256)
    (hiv1 : iv1.length = IV_LEN) (hivb1 : ∀ b ∈ iv1, b < 256)
    (hs2 : salt2.length = SALT_LEN) (hsb2 : ∀ b ∈ salt2, b < 256)
    (hiv2 : iv2.length = IV_LEN) (hivb2 : ∀ b ∈ iv2, b < 256)
    (hne : (salt1, iv1) ≠ (salt2, iv2)) :
    encrypt_command cm p w salt1 iv1 ≠ encrypt_command cm p w salt2 iv2 := by
  intro heq
  have hs1' : salt1.length = 16 := hs1
  have hs2' : salt2.length = 16 := hs2
  have hiv1' : iv1.length = 16 := hiv1
  have hiv2' : iv2.length = 16 := hiv2
  have hall1 := encrypt_command_bytes_lt cm p w salt1 iv1 hp hsb1 hiv1' hivb1
  have hall2 := encrypt_command_bytes_lt cm p w salt2 iv2 hp hsb2 hiv2' hivb2
  have hdec1 := b64decodeLoop_b64encode _ hall1
  have hdec2 := b64decodeLoop_b64encode _ hall2
  unfold encrypt_command at heq
  rw [heq, hdec2] at hdec1
  have hX : salt1 ++ (iv1 ++ evpEncrypt cm (cm.kdf w salt1) iv1 p)
      = salt2 ++ (iv2 ++ evpEncrypt cm (cm.kdf w salt2) iv2 p) := by
    have := hdec1
    simpa [List.append_assoc] using this.symm
  have hsalt : salt1 = salt2 := by
    have h1 := congrArg (fun l => l.take 16) hX
    simpa [List.take_left' hs1', List.take_left' hs2'] using h1
  have hivs : iv1 = iv2 := by
    have h1 := congrArg (fun l => (l.drop 16).take 16) hX
    simpa [List.drop_left' hs1', List.drop_left' hs2',
      List.take_left' hiv1', List.take_left' hiv2'] using h1
  exact hne (by rw [hsalt, hivs])

/-! ## Trivial primitive instantiation

A degenerate `CipherModel` (identity block permutation, constant key
derivation).  It is not the program's AES-256/PBKDF2 instance; it exists
only to evaluate the embedding on concrete inputs in witness theorems,
which hold for every `CipherModel`. -/

def trivialCipher : CipherModel where
  blockEnc := fun _ b => b
  blockDec := fun _ b => b
  kdf := fun _ _ => List.replicate 32 0
  blockDec_blockEnc := fun _ _ _ => rfl
  blockEnc_length := fun _ _ h => h
  blockEnc_lt := fun _ _ _ h => h

/-! ## Preset store (cmdset.h, src/cmdset.c:425-893)

`cmdset_preset_t` has fields `char name[50]`, `char command[500]`,
`int active`, `int encrypt`, `long created_at`, `long last_used`,
`int use_count`; `cmdset_manager_t` is an array of 100 presets plus a
slot count.  The manager is modelled as the list of its first `count`
slots (slots past `count` are never read by any function), so
`manager->count` is `presets.length`. -/

structure Preset where
  name : String
  command : String
  active : Bool
  encrypt : Bool
  created_at : Int
  last_used : Int
  use_count : Int
  deriving DecidableEq, Repr

structure Manager where
  presets : List Preset
  deriving DecidableEq, Repr

/-- Error codes from src/cmdset.c:399-406. -/
def CMDSET_SUCCESS : Int := 0
def CMDSET_ERROR_MEMORY : Int := -1
def CMDSET_ERROR_FILE : Int := -2
def CMDSET_ERROR_NOT_FOUND : Int := -3
def CMDSET_ERROR_EXISTS : Int := -4
def CMDSET_ERROR_INVALID : Int := -5
def CMDSET_ERROR_ENCRYPTION : Int := -6
def CMDSET_ERROR_JSON : Int := -7

/-- `strncpy(dst, src, k)` followed by `dst[k] = 0`: keep at most `k`
characters of `src`. -/
def cTruncStr (k : Nat) (s : String) : String :=
  if s.length ≤ k then s else String.mk (s.data.take k)

/-- Bytes of a C string. -/
def strBytes (s : String) : List Nat := s.data.map Char.toNat

/-- A byte list viewed as a C string. -/
def natsToString (bs : List Nat) : String := String.mk (bs.map Char.ofNat)

/-- The duplicate/lookup loop used by `cmdset_add_preset`,
`cmdset_find_preset` and `cmdset_execute_preset`: the first preset that is
active and has the given name. -/
def findActive (m : Manager) (name : String) : Option Preset :=
  m.presets.find? (fun p => p.active && p.name == name)

/-- `cmdset_add_preset` (src/cmdset.c:434-479).  Checks capacity, the
name/command length bounds and duplicate active names; stores the envelope
text when `encrypt` is set (drawing `salt`/`iv` from `RAND_bytes` and the
password `w` from the session layer), the command verbatim otherwise.
Field writes into the slot before a failed encryption are invisible
because `count` is not incremented. -/
def cmdset_add_preset (cm : CipherModel) (m : Manager) (name command : String)
    (encrypt : Bool) (w : String) (salt iv : List Nat) (now : Int) :
    Manager × Int :=
  if m.presets.length ≥ MAX_PRESETS then (m, CMDSET_ERROR_MEMORY)
  else if name.length ≥ MAX_NAME_LEN then (m, CMDSET_ERROR_INVALID)
  else if command.length ≥ MAX_COMMAND_LEN then (m, CMDSET_ERROR_INVALID)
  else if (findActive m name).isSome then (m, CMDSET_ERROR_EXISTS)
  else
    (⟨m.presets ++ [{
        name := name
        command := if encrypt then
            String.mk (encrypt_command cm (strBytes command) w salt iv)
          else command
        active := true
        encrypt := encrypt
        created_at := now
        last_used := 0
        use_count := 0 }]⟩, CMDSET_SUCCESS)

/-- The removal loop of `cmdset_remove_preset` (src/cmdset.c:486-491):
clear the `active` flag of the first active preset with the given name,
`none` when there is none. -/
def removeLoop (name : String) : List Preset → Option (List Preset)
  | [] => none
  | p :: rest =>
    if p.active && p.name == name then some ({ p with active := false } :: rest)
    else match removeLoop name rest with
      | some rest2 => some (p :: rest2)
      | none => none

/-- `cmdset_remove_preset` (src/cmdset.c:481-494). -/
def cmdset_remove_preset (m : Manager) (name : String) : Manager × Int :=
  match removeLoop name m.presets with
  | some ps => (⟨ps⟩, CMDSET_SUCCESS)
  | none => (m, CMDSET_ERROR_NOT_FOUND)

/-- The lookup-and-update step of `cmdset_execute_preset`
(src/cmdset.c:502-513): find the first active preset with the given name
and set its `last_used`/`use_count` in place, returning the updated list
and the updated preset. -/
def updateFirst (name : String) (now : Int) :
    List Preset → Option (List Preset × Preset)
  | [] => none
  | p :: rest =>
    if p.active && p.name == name then
      some (({ p with last_used := now, use_count := p.use_count + 1 }) :: rest,
        { p with last_used := now, use_count := p.use_count + 1 })
    else match updateFirst name now rest with
      | some (rest2, q) => some (p :: rest2, q)
      | none => none

/-- `strcat(command_to_execute, " "); strcat(command_to_execute, args)`
when `additional_args` is non-NULL and nonempty (src/cmdset.c:521-524). -/
def appendArgs (cmd : String) (args : Option String) : String :=
  match args with
  | some a => if a.length > 0 then cmd ++ " " ++ a else cmd
  | none => cmd

/-- Result of `cmdset_execute_preset`: an error code, or the invocation of
the external runner `system(command_to_execute)` with the resolved command
line (whose exit status is the runner's and is returned unchanged). -/
inductive ExecResult where
  | err (code : Int)
  | ran (cmd : String)
  deriving DecidableEq, Repr

/-- `cmdset_execute_preset` (src/cmdset.c:496-528).  The session password
`w` models what `get_session_password` hands to
`decrypt_command_internal`; note the `last_used`/`use_count` update
happens at lookup time, before decryption is attempted. -/
def cmdset_execute_preset (cm : CipherModel) (m : Manager) (name : String)
    (args : Option String) (w : String) (now : Int) : Manager × ExecResult :=
  match updateFirst name now m.presets with
  | none => (m, .err CMDSET_ERROR_NOT_FOUND)
  | some (ps2, p) =>
    if p.encrypt then
      match decrypt_command cm p.command.data w with
      | none => (⟨ps2⟩, .err CMDSET_ERROR_ENCRYPTION)
      | some pt => (⟨ps2⟩, .ran (appendArgs (natsToString pt) args))
    else (⟨ps2⟩, .ran (appendArgs p.command args))

/-- Number of active presets (`cmdset_get_preset_count`,
src/cmdset.c:867-874). -/
def activeCount (ps : List Preset) : Nat :=
  (ps.filter (fun p => p.active)).length

/-- The listing loop of `cmdset_list_presets` (src/cmdset.c:539-553):
one line per active preset, numbered by `active_count + 1`; encrypted
presets show the fixed marker instead of their command text. -/
def listLoop : List Preset → Nat → String
  | [], _ => ""
  | p :: rest, k =>
    if p.active then
      (if p.encrypt then
        toString (k + 1) ++ ". " ++ p.name ++ ": [ENCRYPTED] (command hidden)\n"
       else
        toString (k + 1) ++ ". " ++ p.name ++ ": " ++ p.command ++ "\n") ++
      listLoop rest (k + 1)
    else listLoop rest k

/-- `cmdset_list_presets` (src/cmdset.c:530-557), modelled as the full
output text (the C writes the same text into a caller buffer through
`snprintf`; the buffer bound only truncates the tail and is not
modelled). -/
def cmdset_list_presets (m : Manager) : String :=
  "Presets:\n--------\n" ++ listLoop m.presets 0 ++
  (if activeCount m.presets = 0 then "No presets found\n"
   else "\nTotal: " ++ toString (activeCount m.presets) ++ " preset(s)\n")

/-! ## Persistence codec (src/cmdset.c:574-704, 766-852)

`cmdset_save_presets` builds a json-c document; `cmdset_load_presets` and
`cmdset_import_presets` parse one.  The external JSON
serializer/parser is modelled by working directly with the structured
document: each entry field is `some v` when the key is present with the
right json type and `none` otherwise (absent, or present with a wrong
type, which the load/import code treats identically; `encrypt` is read
with `json_object_get_boolean` without a type check, so any json value
coerces to a `Bool`).  File I/O failures (unwritable or unreadable file,
unparsable text) are upstream of these documents and are not modelled. -/

structure PresetDocEntry where
  name : Option String
  command : Option String
  encrypt : Option Bool
  created_at : Option Int
  last_used : Option Int
  use_count : Option Int
  deriving DecidableEq, Repr

structure PresetDoc where
  version : String
  presets : List PresetDocEntry
  deriving DecidableEq, Repr

/-- `cmdset_save_presets` (src/cmdset.c:574-626): one document entry per
active preset, in slot order, with all six fields written. -/
def cmdset_save_presets (m : Manager) : PresetDoc :=
  ⟨"2.0", (m.presets.filter (fun p => p.active)).map (fun p =>
    ⟨some p.name, some p.command, some p.encrypt, some p.created_at,
     some p.last_used, some p.use_count⟩)⟩

/-- One loaded slot of `cmdset_load_presets` (src/cmdset.c:661-699):
`active` is set, `name`/`command` are copied with
`strncpy(..., MAX_*_LEN - 1)` into the zeroed manager (so an absent field
reads back as the empty string), and the remaining fields default to
`time(NULL)` / `0` / `0` when absent. -/
def loadEntry (e : PresetDocEntry) (now : Int) : Preset :=
  { name := cTruncStr (MAX_NAME_LEN - 1) (e.name.getD "")
    command := cTruncStr (MAX_COMMAND_LEN - 1) (e.command.getD "")
    active := true
    encrypt := e.encrypt.getD false
    created_at := e.created_at.getD now
    last_used := e.last_used.getD 0
    use_count := e.use_count.getD 0 }

/-- `cmdset_load_presets` (src/cmdset.c:628-704) applied to a parsed
document: fill slots from the entries, stopping at the 100-slot
capacity. -/
def cmdset_load_presets (doc : PresetDoc) (now : Int) : Manager :=
  ⟨(doc.presets.take MAX_PRESETS).map (fun e => loadEntry e now)⟩

/-- The import loop of `cmdset_import_presets` (src/cmdset.c:802-849):
stop when the store is full; skip entries without a string `name`; skip
entries whose name equals an active preset's name; skip entries without a
string `command` (their partial slot writes are invisible because `count`
is not incremented); append everything else with the entry's own
`encrypt`/timestamps/count, defaulting as on load. -/
def importLoop (now : Int) : List Preset → List PresetDocEntry → List Preset
  | ps, [] => ps
  | ps, e :: rest =>
    if ps.length ≥ MAX_PRESETS then ps
    else
      match e.name with
      | none => importLoop now ps rest
      | some nm =>
        if ps.any (fun p => p.active && p.name == nm) then
          importLoop now ps rest
        else
          match e.command with
          | none => importLoop now ps rest
          | some cmd =>
            importLoop now (ps ++ [{
              name := cTruncStr (MAX_NAME_LEN - 1) nm
              command := cTruncStr (MAX_COMMAND_LEN - 1) cmd
              active := true
              encrypt := e.encrypt.getD false
              created_at := e.created_at.getD now
              last_used := e.last_used.getD 0
              use_count := e.use_count.getD 0 }]) rest

/-- `cmdset_import_presets` (src/cmdset.c:766-852) applied to a parsed
document (a missing or unreadable file and a document without a `presets`
array fail earlier and leave the store untouched).  No password, key
derivation, encryption or decryption appears anywhere in this path. -/
def cmdset_import_presets (m : Manager) (doc : PresetDoc) (now : Int) :
    Manager × Int :=
  (⟨importLoop now m.presets doc.presets⟩, CMDSET_SUCCESS)

/-! ## Session cache (src/cmdset.c:384-984)

Globals `session_password`, `session_start_time`, `session_active`,
`current_preset_name`; the mirror file `~/.cmdset_session` holds three
lines: epoch seconds, password, bound preset name.  The file is modelled
by its parsed contents (`none` when absent or unparsable), the interactive
prompt by the `typed` argument. -/

structure SessionState where
  password : String
  startTime : Int
  active : Bool
  boundName : String
  deriving DecidableEq, Repr

/-- `clear_session` (src/cmdset.c:980-984): zero the password, reset the
timestamp and the flag.  `current_preset_name` is not cleared. -/
def clear_session (st : SessionState) : SessionState :=
  { st with password := "", startTime := 0, active := false }

/-- `is_session_valid` (src/cmdset.c:970-978); clears the session as a
side effect when it has expired. -/
def is_session_valid (st : SessionState) (now : Int) : Bool × SessionState :=
  if !st.active then (false, st)
  else if now - st.startTime > SESSION_TIMEOUT then (false, clear_session st)
  else (true, st)

/-- `get_session_password` (src/cmdset.c:930-968) for a non-NULL
`preset_name` (as called from every preset-store path).  Returns the
password handed back, whether the user was prompted
(`get_master_password`, whose entered text is `typed`), and the session
state afterwards.  The mirror file's password and bound name are loaded
into the globals as soon as the timestamp is fresh, but the file password
is returned without prompting only when its bound name equals the
target. -/
def get_session_password (st : SessionState)
    (file : Option (Int × String × String)) (now : Int) (target : String)
    (typed : String) : String × Bool × SessionState :=
  let v := is_session_valid st now
  if v.1 && v.2.boundName.length > 0 && v.2.boundName == target then
    (v.2.password, false, v.2)
  else
    match file with
    | some (ftime, fpw, fname) =>
      if now - ftime ≤ SESSION_TIMEOUT then
        if fname == target then
          (fpw, false,
            { password := fpw, startTime := ftime, active := true,
              boundName := fname })
        else (typed, true, { v.2 with password := fpw, boundName := fname })
      else (typed, true, v.2)
    | none => (typed, true, v.2)

/-! ## Claim C3: store state on decryption failure -/

theorem updateFirst_eq_set (name : String) (now : Int) :
    ∀ (ps ps2 : List Preset) (p : Preset),
    updateFirst name now ps = some (ps2, p) →
    ∃ i, ∃ hi : i < ps.length,
      ps[i].active = true ∧ ps[i].name = name ∧
      p = { ps[i] with last_used := now, use_count := ps[i].use_count + 1 } ∧
      ps2 = ps.set i p := by
  intro ps
  induction ps with
  | nil => intro ps2 p h; simp [updateFirst] at h
  | cons q rest ih =>
    intro ps2 p h
    rw [updateFirst] at h
    by_cases hq : (q.active && q.name == name) = true
    · rw [if_pos hq] at h
      simp only [Option.some.injEq, Prod.mk.injEq] at h
      obtain ⟨h1, h2⟩ := h
      have hqa : q.active = true := by
        have := Bool.and_eq_true .. ▸ hq
        exact this.1
      have hqn : q.name = name := by
        have := Bool.and_eq_true .. ▸ hq
        exact beq_iff_eq.mp this.2
      refine ⟨0, by simp, by simpa using hqa, by simpa using hqn, ?_, ?_⟩
      · simpa using h2.symm
      · rw [← h1, ← h2]
        simp
    · rw [if_neg hq] at h
      rcases hrec : updateFirst name now rest with _ | ⟨rest2, p2⟩
      · rw [hrec] at h; simp at h
      · rw [hrec] at h
        simp only [Option.some.injEq, Prod.mk.injEq] at h
        obtain ⟨h1, h2⟩ := h
        obtain ⟨i, hi, ha, hn, hp, hset⟩ := ih rest2 p2 hrec
        refine ⟨i + 1, by simpa using Nat.succ_lt_succ hi, ?_, ?_, ?_, ?_⟩
        · simpa using ha
        · simpa using hn
        · rw [← h2]
          simpa using hp
        · rw [← h1, hset, ← h2]
          simp

/-- **C3 (amended).**  When executing an encrypted preset fails to
decrypt, the operation returns the decryption error without invoking the
external runner, and the rest of the store is untouched — but the found
preset's `last_used` and `use_count` have already been updated at lookup
time, before decryption was attempted. -/
theorem C3_decrypt_failure_updates_usage (cm : CipherModel) (m : Manager)
    (name : String) (args : Option String) (w : String) (now : Int)
    (ps2 : List Preset) (p : Preset)
    (hfind : updateFirst name now m.presets = some (ps2, p))
    (henc : p.encrypt = true)
    (hfail : decrypt_command cm p.command.data w = none) :
    cmdset_execute_preset cm m name args w now =
      (⟨ps2⟩, .err CMDSET_ERROR_ENCRYPTION) ∧
    ∃ i, ∃ hi : i < m.presets.length,
      m.presets[i].active = true ∧ m.presets[i].name = name ∧
      p = { m.presets[i] with last_used := now, use_count := m.presets[i].use_count + 1 } ∧
      ps2 = m.presets.set i p := by
  constructor
  · unfold cmdset_execute_preset
    rw [hfind]
    simp only [henc, if_true, hfail]
  · exact updateFirst_eq_set name now m.presets ps2 p hfind

/-- An envelope text that decodes correctly but fails the padding check
under `trivialCipher`: 16 zero bytes of salt, IV and ciphertext. -/
def badEnvelope : String := String.mk (b64encode (List.replicate 48 0))

/-- A one-preset store whose single preset is encrypted, never used, and
carries `badEnvelope`. -/
def storeC3 : Manager := ⟨[⟨"s", badEnvelope, true, true, 5, 0, 0⟩]⟩

/-- **C3 (counterexample).**  Executing the encrypted preset of `storeC3`
fails with the decryption error, yet the in-memory store has changed: the
preset's `use_count` went from 0 to 1 and `last_used` from 0 to 99 — they
were updated before the decryption attempt, not after it. -/
theorem C3_counterexample :
    (cmdset_execute_preset trivialCipher storeC3 "s" none "pw" 99).2 =
      .err CMDSET_ERROR_ENCRYPTION ∧
    (cmdset_execute_preset trivialCipher storeC3 "s" none "pw" 99).1.presets.map
      (fun p => (p.last_used, p.use_count)) = [(99, 1)] ∧
    (storeC3.presets.map (fun p => (p.last_used, p.use_count)) = [(0, 0)]) := by
  decide

/-- Witness for `C3_decrypt_failure_updates_usage` at the concrete inputs
of the counterexample. -/
theorem C3_witness :
    cmdset_execute_preset trivialCipher storeC3 "s" none "pw" 99 =
      (⟨[⟨"s", badEnvelope, true, true, 5, 99, 1⟩]⟩,
        .err CMDSET_ERROR_ENCRYPTION) :=
  (C3_decrypt_failure_updates_usage trivialCipher storeC3 "s" none "pw" 99
    [⟨"s", badEnvelope, true, true, 5, 99, 1⟩]
    ⟨"s", badEnvelope, true, true, 5, 99, 1⟩
    (by decide) (by decide) (by decide)).1

/-! ## Claim C4: session-cache password acquisition -/

/-- **C4 (counterexample).**  An in-memory cache entry bound to the empty
preset name: the entry is live (`active`, age 0 ≤ 300s) and its bound name
equals the target name, yet `get_session_password` prompts, because the
in-memory path additionally requires `strlen(current_preset_name) > 0`. -/
theorem C4_counterexample :
    ((⟨"pw", 0, true, ""⟩ : SessionState).active = true ∧
      (0 : Int) - (⟨"pw", 0, true, ""⟩ : SessionState).startTime ≤
        SESSION_TIMEOUT ∧
      (⟨"pw", 0, true, ""⟩ : SessionState).boundName = "") ∧
    (get_session_password ⟨"pw", 0, true, ""⟩ none 0 "" "typed").2.1 = true := by
  decide

/-- **C4 (amended).**  `get_session_password` returns a password without
prompting exactly when the live in-memory entry is bound to the (nonempty)
target name, or the mirror file holds a fresh entry bound to the target
name; in the first case it returns the in-memory password, in the second
the file password, and whenever it prompts it returns the typed text. -/
theorem C4_no_prompt_iff (st : SessionState)
    (file : Option (Int × String × String)) (now : Int)
    (target typed : String) :
    ((get_session_password st file now target typed).2.1 = false ↔
      (st.active = true ∧ now - st.startTime ≤ SESSION_TIMEOUT ∧
        st.boundName = target ∧ 0 < st.boundName.length) ∨
      (∃ t pw nm, file = some (t, pw, nm) ∧ now - t ≤ SESSION_TIMEOUT ∧
        nm = target)) ∧
    ((st.active = true ∧ now - st.startTime ≤ SESSION_TIMEOUT ∧
        st.boundName = target ∧ 0 < st.boundName.length) →
      (get_session_password st file now target typed).1 = st.password) ∧
    (∀ t pw nm, file = some (t, pw, nm) → now - t ≤ SESSION_TIMEOUT →
      nm = target →
      ¬(st.active = true ∧ now - st.startTime ≤ SESSION_TIMEOUT ∧
        st.boundName = target ∧ 0 < st.boundName.length) →
      (get_session_password st file now target typed).1 = pw) ∧
    ((get_session_password st file now target typed).2.1 = true →
      (get_session_password st file now target typed).1 = typed) := by
  unfold get_session_password is_session_valid clear_session
  rcases file with _ | ⟨t, pw, nm⟩
  · by_cases ha : st.active = true
    · by_cases hexp : now - st.startTime > SESSION_TIMEOUT
      · have h1 : ¬(now ≤ SESSION_TIMEOUT + st.startTime) := by omega
        have h1' : SESSION_TIMEOUT + st.startTime < now := by omega
        simp [ha, hexp, h1, h1']
      · by_cases hb : st.boundName = target
        · simp [ha, hexp, hb]
          by_cases hn : 0 < target.length
          · simp [hn]
            omega
          · simp [hn]
        · simp [ha, hexp, hb]
    · simp [ha]
  · by_cases ha : st.active = true
    · by_cases hexp : now - st.startTime > SESSION_TIMEOUT
      · have h1 : ¬(now ≤ SESSION_TIMEOUT + st.startTime) := by omega
        by_cases h2 : now ≤ SESSION_TIMEOUT + t
        · by_cases hfn : nm = target
          · simp [ha, hexp, hfn, h1, h2]
          · simp [ha, hexp, hfn, h1, h2]
        · have h3 : SESSION_TIMEOUT + t < now := by omega
          simp [ha, hexp, h1, h2, h3]
      · by_cases hb : st.boundName = target
        · simp [ha, hexp, hb]
          by_cases hn : 0 < target.length
          · simp [hn]
            omega
          · simp [hn]
            by_cases h2 : now ≤ SESSION_TIMEOUT + t
            · by_cases hfn : nm = target
              · simp [h2, hfn]
              · simp [h2, hfn]
            · simp [h2]
              intro _
              omega
        · simp [ha, hexp, hb]
          by_cases h2 : now ≤ SESSION_TIMEOUT + t
          · by_cases hfn : nm = target
            · simp [h2, hfn]
            · simp [h2, hfn]
          · simp [h2]
            intro _
            omega
    · simp [ha]
      by_cases h2 : now ≤ SESSION_TIMEOUT + t
      · by_cases hfn : nm = target
        · simp [h2, hfn]
        · simp [h2, hfn]
      · simp [h2]
        intro _
        omega


/-- Witness for `C4_no_prompt_iff`: a live in-memory entry bound to the
nonempty target name is returned without prompting. -/
theorem C4_witness :
    (get_session_password ⟨"pw", 10, true, "job"⟩ none 20 "job" "typed").1 =
      "pw" :=
  (C4_no_prompt_iff ⟨"pw", 10, true, "job"⟩ none 20 "job" "typed").2.1
    (by decide)

/-! ## Claim C5: the list operation hides encrypted commands -/

/-- A store with every encrypted preset's command text replaced by the
empty string. -/
def redactEncrypted (m : Manager) : Manager :=
  ⟨m.presets.map (fun p => if p.encrypt then { p with command := "" } else p)⟩

theorem listLoop_redact (ps : List Preset) (k : Nat) :
    listLoop (ps.map (fun p => if p.encrypt then { p with command := "" }
      else p)) k = listLoop ps k := by
  induction ps generalizing k with
  | nil => rfl
  | cons p rest ih =>
    by_cases he : p.encrypt = true
    · by_cases ha : p.active = true
      · simp [listLoop, he, ha, ih]
      · simp [listLoop, he, ha, ih]
    · by_cases ha : p.active = true
      · simp [listLoop, he, ha, ih]
      · simp [listLoop, he, ha, ih]

theorem activeCount_redact (ps : List Preset) :
    activeCount (ps.map (fun p => if p.encrypt then { p with command := "" }
      else p)) = activeCount ps := by
  induction ps with
  | nil => rfl
  | cons p rest ih =>
    by_cases he : p.encrypt = true
    · by_cases ha : p.active = true
      · simp [activeCount, he, ha]
        simpa [activeCount] using ih
      · simp [activeCount, he, ha]
        simpa [activeCount] using ih
    · by_cases ha : p.active = true
      · simp [activeCount, he, ha]
        simpa [activeCount] using ih
      · simp [activeCount, he, ha]
        simpa [activeCount] using ih

/-- **C5.**  The list output never depends on the command text of any
encrypted preset — replacing all encrypted commands by the empty string
leaves the output unchanged (so the raw command text of an active
encrypted preset is never exposed) — and an active encrypted preset
contributes exactly its name with the fixed
`[ENCRYPTED] (command hidden)` marker. -/
theorem C5_list_hides_encrypted (m : Manager) :
    cmdset_list_presets (redactEncrypted m) = cmdset_list_presets m ∧
    (∀ p : Preset, p.active = true → p.encrypt = true →
      cmdset_list_presets ⟨[p]⟩ =
        "Presets:\n--------\n" ++
        ("1. " ++ p.name ++ ": [ENCRYPTED] (command hidden)\n") ++
        "\nTotal: 1 preset(s)\n") := by
  constructor
  · unfold cmdset_list_presets redactEncrypted
    dsimp only
    rw [listLoop_redact, activeCount_redact]
  · intro p ha he
    unfold cmdset_list_presets
    simp [listLoop, activeCount, ha, he]
    rfl

/-- Witness for `C5_list_hides_encrypted`: the command text (here the
envelope placeholder text "SECRET") does not appear in the listing of a
one-preset store. -/
theorem C5_witness :
    cmdset_list_presets ⟨[⟨"job", "SECRET", true, true, 0, 0, 0⟩]⟩ =
      "Presets:\n--------\n" ++
      ("1. " ++ "job" ++ ": [ENCRYPTED] (command hidden)\n") ++
      "\nTotal: 1 preset(s)\n" :=
  (C5_list_hides_encrypted ⟨[⟨"job", "SECRET", true, true, 0, 0, 0⟩]⟩).2
    ⟨"job", "SECRET", true, true, 0, 0, 0⟩ rfl rfl

/-! ## Claim C6: decode-loop validation -/

/-- **C6 (counterexample).**  An input of valid table symbols whose length
is not a multiple of 4: the decode loop does not fail — it produces bytes,
reading the NUL bytes past the end of the string — and
`decrypt_command_internal` has no InvalidEncoding failure path at all. -/
theorem C6_counterexample :
    "AAAAA".length % 4 ≠ 0 ∧
    b64decodeLoop "AAAAA".data = some [0, 0, 0, 4] := by
  constructor
  · decide
  · rfl

/-- **C6 (amended).**  The decode loop of `decrypt_command_internal`
performs no validation: on any input made of table symbols it succeeds
regardless of the input length (reading NUL past the end of a short final
group); an input symbol outside the table (other than `'='` at group
offsets 2 and 3) leads to undefined behaviour (`strchr` returns `NULL`),
not to a reported error.  No `InvalidEncoding` error exists in the code. -/
theorem C6_decode_never_fails (s : List Char)
    (h : ∀ c ∈ s, c ∈ base64Chars) : (b64decodeLoop s).isSome := by
  exact b64decodeLoop_isSome_of_alphabet s h

/-- Witness for `C6_decode_never_fails` at the counterexample input. -/
theorem C6_witness : (b64decodeLoop "AAAAA".data).isSome :=
  C6_decode_never_fails "AAAAA".data (by decide)

/-! ## Claims C1/C7 witnesses -/

/-- Witness for `C1_roundtrip_fails` on a concrete run: a 16-byte
plaintext (so the padded plaintext is 32 bytes, the bundle 64 bytes, and
the envelope ends in two `'='` pads) fails to decrypt under the very
password it was encrypted with. -/
theorem C1_bug_witness :
    decrypt_command trivialCipher
      (encrypt_command trivialCipher (List.replicate 16 65) "pw1"
        (List.replicate 16 1) (List.replicate 16 2)) "pw1" = none :=
  C1_roundtrip_fails trivialCipher (List.replicate 16 65) "pw1"
    (List.replicate 16 1) (List.replicate 16 2)
    (by decide) (by decide) (by decide) (by decide) (by decide) (by decide)
    (by decide)

/-- Witness for `C7_envelope_freshness` on a concrete pair of runs with
different salts. -/
theorem C7_witness :
    encrypt_command trivialCipher [104] "pw" (List.replicate 16 1)
      (List.replicate 16 2) ≠
    encrypt_command trivialCipher [104] "pw" (List.replicate 16 3)
      (List.replicate 16 2) :=
  C7_envelope_freshness trivialCipher [104] "pw" (List.replicate 16 1)
    (List.replicate 16 2) (List.replicate 16 3) (List.replicate 16 2)
    (by decide) (by decide) (by decide) (by decide) (by decide) (by decide)
    (by decide) (by decide) (by decide) (by decide)

/-! ## Claim C8: save/load round trip -/

theorem findActive_filter_active (ps : List Preset) (name : String) :
    (ps.filter (fun p => p.active)).find? (fun p => p.active && p.name == name)
      = ps.find? (fun p => p.active && p.name == name) := by
  rw [List.find?_filter]
  congr 1
  funext p
  by_cases ha : p.active = true <;> by_cases hn : p.name = name <;>
    simp [ha, hn]

/-- **C8.**  Saving a store and loading the document into a fresh store
yields exactly the active presets of the original, in order, with the
name, command-as-stored, encrypt flag, `created_at`, `last_used` and
`use_count` of each unchanged; in particular, `find` on the reloaded store
agrees with `find` on the original for every name.  The hypotheses are the
store invariants maintained by every constructor of presets (at most 100
slots; names under 50 and commands under 500 bytes). -/
theorem C8_save_load_roundtrip (m : Manager) (now : Int)
    (hcap : m.presets.length ≤ MAX_PRESETS)
    (hwf : ∀ p ∈ m.presets, p.name.length < MAX_NAME_LEN ∧
      p.command.length < MAX_COMMAND_LEN) :
    cmdset_load_presets (cmdset_save_presets m) now =
      ⟨m.presets.filter (fun p => p.active)⟩ ∧
    (∀ name, findActive (cmdset_load_presets (cmdset_save_presets m) now) name
      = findActive m name) := by
  have hfl : (m.presets.filter (fun p => p.active)).length ≤ MAX_PRESETS :=
    le_trans (List.length_filter_le _ _) hcap
  have hmain : cmdset_load_presets (cmdset_save_presets m) now =
      ⟨m.presets.filter (fun p => p.active)⟩ := by
    unfold cmdset_load_presets cmdset_save_presets
    dsimp only
    rw [List.take_of_length_le (by simpa using hfl), List.map_map]
    congr 1
    have : ∀ p ∈ m.presets.filter (fun p => p.active),
        loadEntry ⟨some p.name, some p.command, some p.encrypt,
          some p.created_at, some p.last_used, some p.use_count⟩ now = p := by
      intro p hp
      have hpm : p ∈ m.presets := List.mem_of_mem_filter hp
      have hpa : p.active = true := by
        have := List.of_mem_filter hp
        simpa using this
      have hw := hwf p hpm
      unfold loadEntry cTruncStr
      simp only [Option.getD_some]
      have hn1 : p.name.length ≤ MAX_NAME_LEN - 1 := by
        have h1 := hw.1
        unfold MAX_NAME_LEN at h1 ⊢
        omega
      have hn2 : p.command.length ≤ MAX_COMMAND_LEN - 1 := by
        have h2 := hw.2
        unfold MAX_COMMAND_LEN at h2 ⊢
        omega
      rw [if_pos hn1, if_pos hn2]
      cases p
      simp_all
    calc (m.presets.filter (fun p => p.active)).map
          ((fun e => loadEntry e now) ∘ (fun p =>
            ⟨some p.name, some p.command, some p.encrypt, some p.created_at,
             some p.last_used, some p.use_count⟩))
        = (m.presets.filter (fun p => p.active)).map id := by
          apply List.map_congr_left
          intro p hp
          exact this p hp
      _ = m.presets.filter (fun p => p.active) := List.map_id _
  refine ⟨hmain, ?_⟩
  intro name
  rw [hmain]
  unfold findActive
  exact findActive_filter_active m.presets name

/-- Witness for `C8_save_load_roundtrip` on a concrete two-preset store
(one active, one removed). -/
theorem C8_witness :
    cmdset_load_presets (cmdset_save_presets
      ⟨[⟨"backup", "tar -czf x.tgz .", true, false, 3, 0, 0⟩,
        ⟨"gone", "rm x", false, false, 4, 9, 2⟩]⟩) 77 =
      ⟨[⟨"backup", "tar -czf x.tgz .", true, false, 3, 0, 0⟩]⟩ :=
  (C8_save_load_roundtrip
    ⟨[⟨"backup", "tar -czf x.tgz .", true, false, 3, 0, 0⟩,
      ⟨"gone", "rm x", false, false, 4, 9, 2⟩]⟩ 77
    (by decide) (by decide)).1

/-! ## Claim C9: import semantics -/

/-- An import entry with a present name and command, both within the
store's byte bounds (so the `strncpy` copies are no-ops). -/
def entryFits (e : PresetDocEntry) : Prop :=
  e.name.isSome = true ∧ (e.name.getD "").length ≤ MAX_NAME_LEN - 1 ∧
  e.command.isSome = true ∧ (e.command.getD "").length ≤ MAX_COMMAND_LEN - 1

/-- The preset an in-bounds import entry becomes. -/
def importedPreset (now : Int) (e : PresetDocEntry) : Preset :=
  { name := e.name.getD "", command := e.command.getD "", active := true,
    encrypt := e.encrypt.getD false, created_at := e.created_at.getD now,
    last_used := e.last_used.getD 0, use_count := e.use_count.getD 0 }

theorem importLoop_prefix (now : Int) :
    ∀ (entries : List PresetDocEntry) (ps : List Preset),
    ∃ tl, importLoop now ps entries = ps ++ tl := by
  intro entries
  induction entries with
  | nil => intro ps; exact ⟨[], by simp [importLoop]⟩
  | cons e rest ih =>
    intro ps
    rw [importLoop]
    by_cases hfull : ps.length ≥ MAX_PRESETS
    · exact ⟨[], by rw [if_pos hfull]; simp⟩
    · rw [if_neg hfull]
      rcases e.name with _ | nm
      · exact ih ps
      · dsimp only
        by_cases hcol : ps.any (fun p => p.active && p.name == nm) = true
        · rw [if_pos hcol]
          exact ih ps
        · rw [if_neg hcol]
          rcases e.command with _ | cmd
          · exact ih ps
          · dsimp only
            obtain ⟨tl, htl⟩ := ih (ps ++ [{
              name := cTruncStr (MAX_NAME_LEN - 1) nm
              command := cTruncStr (MAX_COMMAND_LEN - 1) cmd
              active := true
              encrypt := e.encrypt.getD false
              created_at := e.created_at.getD now
              last_used := e.last_used.getD 0
              use_count := e.use_count.getD 0 }])
            exact ⟨_, by rw [htl, List.append_assoc]⟩

theorem importLoop_batch (now : Int) :
    ∀ (entries : List PresetDocEntry) (ps : List Preset),
    (∀ e ∈ entries, entryFits e) →
    ps.length + entries.length ≤ MAX_PRESETS →
    (∀ e ∈ entries, ∀ p ∈ ps, p.active = true → some p.name ≠ e.name) →
    (entries.map (fun e => e.name)).Nodup →
    importLoop now ps entries = ps ++ entries.map (importedPreset now) := by
  intro entries
  induction entries with
  | nil => intro ps _ _ _ _; simp [importLoop]
  | cons e rest ih =>
    intro ps hfits hcap hnocol hnodup
    obtain ⟨hns, hnl, hcs, hcl⟩ := hfits e (by simp)
    rcases hname : e.name with _ | nm
    · rw [hname] at hns; simp at hns
    rcases hcmd : e.command with _ | cmd
    · rw [hcmd] at hcs; simp at hcs
    rw [hname] at hnl
    rw [hcmd] at hcl
    have hlt : ¬(ps.length ≥ MAX_PRESETS) := by
      simp only [List.length_cons] at hcap
      omega
    have hany : ps.any (fun p => p.active && p.name == nm) = false := by
      rw [List.any_eq_false]
      intro p hp
      by_cases hpa : p.active = true
      · have hne := hnocol e (by simp) p hp hpa
        rw [hname] at hne
        simp [hpa]
        intro heq
        exact hne (by rw [heq])
      · simp [hpa]
    rw [importLoop, if_neg hlt, hname]
    dsimp only
    rw [if_neg (by rw [hany]; simp), hcmd]
    dsimp only
    have hpeq : ({
        name := cTruncStr (MAX_NAME_LEN - 1) nm
        command := cTruncStr (MAX_COMMAND_LEN - 1) cmd
        active := true
        encrypt := e.encrypt.getD false
        created_at := e.created_at.getD now
        last_used := e.last_used.getD 0
        use_count := e.use_count.getD 0 } : Preset) = importedPreset now e := by
      unfold importedPreset cTruncStr
      rw [hname, hcmd]
      simp only [Option.getD_some]
      rw [if_pos (by simpa using hnl), if_pos (by simpa using hcl)]
    rw [hpeq]
    have hnodup2 : some nm ∉ rest.map (fun e => e.name) := by
      rw [List.map_cons, hname] at hnodup
      exact (List.nodup_cons.mp hnodup).1
    rw [ih (ps ++ [importedPreset now e])
      (fun e he => hfits e (by simp [he]))
      (by simp only [List.length_append, List.length_cons,
        List.length_nil] at hcap ⊢; omega)
      ?nocol
      (by rw [List.map_cons] at hnodup; exact (List.nodup_cons.mp hnodup).2)]
    · simp
    case nocol =>
      intro e2 he2 p hp hpa
      rcases List.mem_append.mp hp with hp | hp
      · exact hnocol e2 (by simp [he2]) p hp hpa
      · have hpe : p = importedPreset now e := by simpa using hp
        subst hpe
        have : (importedPreset now e).name = nm := by
          unfold importedPreset
          rw [hname]
          rfl
        rw [this]
        intro hcontra
        apply hnodup2
        rw [hcontra]
        exact List.mem_map_of_mem (fun e => e.name) he2

/-- **C9 (amended).**  Import leaves all existing slots unchanged
(appending only); an incoming preset whose name matches an active
preset is skipped silently (the operation still reports success); and
when the document's entries fit the name/command bounds, have pairwise
distinct names, collide with no active preset, and fit within the
100-slot capacity, every entry is appended with its command text and
`encrypt` flag (and timestamps/counts) verbatim — no encryption,
decryption or password is involved anywhere in the import path. -/
theorem C9_import_semantics (m : Manager) (doc : PresetDoc) (now : Int) :
    (∃ tl, (cmdset_import_presets m doc now).1.presets = m.presets ++ tl) ∧
    (∀ nm e, e.name = some nm →
      m.presets.any (fun p => p.active && p.name == nm) = true →
      cmdset_import_presets m ⟨doc.version, [e]⟩ now = (m, CMDSET_SUCCESS)) ∧
    ((∀ e ∈ doc.presets, entryFits e) →
     m.presets.length + doc.presets.length ≤ MAX_PRESETS →
     (∀ e ∈ doc.presets, ∀ p ∈ m.presets, p.active = true →
       some p.name ≠ e.name) →
     (doc.presets.map (fun e => e.name)).Nodup →
     (cmdset_import_presets m doc now).1.presets =
       m.presets ++ doc.presets.map (importedPreset now)) := by
  refine ⟨?_, ?_, ?_⟩
  · exact importLoop_prefix now doc.presets m.presets
  · intro nm e hname hcol
    unfold cmdset_import_presets
    rw [importLoop]
    by_cases hfull : m.presets.length ≥ MAX_PRESETS
    · rw [if_pos hfull]
    · rw [if_neg hfull, hname]
      dsimp only
      rw [if_pos hcol]
      rw [importLoop]
  · intro h1 h2 h3 h4
    unfold cmdset_import_presets
    dsimp only
    rw [importLoop_batch now doc.presets m.presets h1 h2 h3 h4]

/-- A store whose 100 slots are all occupied (so `count` is at
capacity). -/
def fullStore : Manager :=
  ⟨(List.range 100).map (fun i => ⟨toString i, "c", true, false, 0, 0, 0⟩)⟩

/-- **C9 (counterexample).**  Importing a non-colliding preset named
"new" into a full store does not store it (the loop stops at the 100-slot
capacity), contradicting the claim that every non-colliding imported
preset is stored. -/
theorem C9_counterexample :
    (∀ p ∈ fullStore.presets, p.name ≠ "new") ∧
    cmdset_import_presets fullStore
      ⟨"2.0", [⟨some "new", some "cmd", some false, some 0, some 0, some 0⟩]⟩
      0 = (fullStore, CMDSET_SUCCESS) := by
  constructor
  · decide
  · rfl

/-- Witness for `C9_import_semantics`: importing an entry whose name
collides with an existing active preset leaves the store unchanged and
reports success. -/
theorem C9_witness :
    cmdset_import_presets ⟨[⟨"dup", "x", true, false, 0, 0, 0⟩]⟩
      ⟨"2.0", [⟨some "dup", some "y", some true, some 1, some 2, some 3⟩]⟩ 9
      = (⟨[⟨"dup", "x", true, false, 0, 0, 0⟩]⟩, CMDSET_SUCCESS) :=
  (C9_import_semantics ⟨[⟨"dup", "x", true, false, 0, 0, 0⟩]⟩
    ⟨"2.0", [⟨some "dup", some "y", some true, some 1, some 2, some 3⟩]⟩
    9).2.1 "dup" ⟨some "dup", some "y", some true, some 1, some 2, some 3⟩
    rfl (by decide)

/-! ## Claim C10: slot-count invariants -/

theorem removeLoop_spec (name : String) : ∀ (ps ps2 : List Preset),
    removeLoop name ps = some ps2 →
    ps2.length = ps.length ∧
    ps2.map (fun p => { p with active := true }) =
      ps.map (fun p => { p with active := true }) := by
  intro ps
  induction ps with
  | nil => intro ps2 h; simp [removeLoop] at h
  | cons q rest ih =>
    intro ps2 h
    rw [removeLoop] at h
    by_cases hq : (q.active && q.name == name) = true
    · rw [if_pos hq] at h
      simp only [Option.some.injEq] at h
      subst h
      constructor
      · simp
      · simp
    · rw [if_neg hq] at h
      rcases hrec : removeLoop name rest with _ | rest2
      · rw [hrec] at h; simp at h
      · rw [hrec] at h
        simp only [Option.some.injEq] at h
        subst h
        obtain ⟨hl, hm⟩ := ih rest2 hrec
        constructor
        · simp [hl]
        · simp [hm]

/-- **C10.**  The slot count (`manager->count`, here `presets.length`)
stays within the 100-slot capacity and is never decreased: `add` keeps it
bounded and never shrinks it, `remove` and `execute` leave it unchanged
(`find` and `list` do not write to the manager at all in the embedding),
`remove` only clears the found preset's `active` flag — every other field
of every slot is retained — and a store whose slot count has reached 100
rejects every further add with the store-full error code, no matter how
many presets are inactive (removed). -/
theorem C10_capacity_invariants (cm : CipherModel) (m : Manager)
    (name command : String) (encrypt : Bool) (w : String)
    (salt iv : List Nat) (now : Int) (args : Option String) :
    (m.presets.length ≤ MAX_PRESETS →
      (cmdset_add_preset cm m name command encrypt w salt iv
        now).1.presets.length ≤ MAX_PRESETS) ∧
    m.presets.length ≤ (cmdset_add_preset cm m name command encrypt w salt iv
      now).1.presets.length ∧
    (cmdset_remove_preset m name).1.presets.length = m.presets.length ∧
    (cmdset_execute_preset cm m name args w now).1.presets.length =
      m.presets.length ∧
    (cmdset_remove_preset m name).1.presets.map
      (fun p => { p with active := true }) =
      m.presets.map (fun p => { p with active := true }) ∧
    (m.presets.length = MAX_PRESETS →
      cmdset_add_preset cm m name command encrypt w salt iv now =
        (m, CMDSET_ERROR_MEMORY)) := by
  have hadd : ∀ P : Manager × Int → Prop, P (m, CMDSET_ERROR_MEMORY) →
      P (m, CMDSET_ERROR_INVALID) → P (m, CMDSET_ERROR_EXISTS) →
      (¬(m.presets.length ≥ MAX_PRESETS) → P (⟨m.presets ++ [{
          name := name
          command := if encrypt then
              String.mk (encrypt_command cm (strBytes command) w salt iv)
            else command
          active := true
          encrypt := encrypt
          created_at := now
          last_used := 0
          use_count := 0 }]⟩, CMDSET_SUCCESS)) →
      P (cmdset_add_preset cm m name command encrypt w salt iv now) := by
    intro P h1 h2 h3 h4
    unfold cmdset_add_preset
    split_ifs with hc1 hc2 hc3 hc4 hc5
    · exact h1
    · exact h2
    · exact h2
    · exact h3
    · have h4c := h4 hc1
      rw [if_pos hc5] at h4c
      exact h4c
    · have h4c := h4 hc1
      rw [if_neg hc5] at h4c
      exact h4c
  have hrem : (cmdset_remove_preset m name).1.presets.length =
        m.presets.length ∧
      (cmdset_remove_preset m name).1.presets.map
        (fun p => { p with active := true }) =
        m.presets.map (fun p => { p with active := true }) := by
    unfold cmdset_remove_preset
    rcases hrec : removeLoop name m.presets with _ | ps2
    · exact ⟨rfl, rfl⟩
    · exact removeLoop_spec name m.presets ps2 hrec
  have hexec : (cmdset_execute_preset cm m name args w now).1.presets.length =
      m.presets.length := by
    unfold cmdset_execute_preset
    rcases hu : updateFirst name now m.presets with _ | ⟨ps2, p⟩
    · rfl
    · obtain ⟨i, hi, _, _, _, hset⟩ := updateFirst_eq_set name now m.presets
        ps2 p hu
      by_cases he : p.encrypt = true
      · simp only [he, if_true]
        rcases decrypt_command cm p.command.data w with _ | pt
        · simp [hset]
        · simp [hset]
      · simp only [he, if_false]
        simp [hset]
  refine ⟨?_, ?_, hrem.1, hexec, hrem.2, ?_⟩
  · intro hle
    apply hadd (fun r => r.1.presets.length ≤ MAX_PRESETS)
    · exact hle
    · exact hle
    · exact hle
    · intro hnot
      simp only [List.length_append, List.length_cons, List.length_nil]
      omega
  · apply hadd (fun r => m.presets.length ≤ r.1.presets.length)
    · exact le_refl _
    · exact le_refl _
    · exact le_refl _
    · intro _
      simp
  · intro hfullEq
    unfold cmdset_add_preset
    rw [if_pos (by omega)]

/-- Witness for `C10_capacity_invariants`: a full store (100 slots, all
still active) rejects a further add with the store-full error code. -/
theorem C10_witness :
    cmdset_add_preset trivialCipher fullStore "new" "cmd" false "pw" [] [] 0 =
      (fullStore, CMDSET_ERROR_MEMORY) :=
  (C10_capacity_invariants trivialCipher fullStore "new" "cmd" false "pw"
    [] [] 0 none).2.2.2.2.2 (by decide)

end Cmdset
